import Mathlib

/-!
Verification of the ProjectAllocator matching and gap-analysis engine.

This file shallowly embeds the core scoring or gap-analysis code
(`analysis/matcher.py` and `analysis/gap_analyzer.py`) in Lean 4 and proves
the specified properties about it.

Modelling conventions:
* Python strings are Lean `String`s (`.data : List Char`); `str.lower()` is
  modelled character-wise by `Char.toLower` (ASCII case mapping) and
  `str.strip()` by dropping `Char.isWhitespace` characters from both ends.
* Python `int` is Lean `Int`; `int((m / r) * 100)` on non-negative operands
  is modelled by exact natural division `(100 * m) / r` (truncation toward
  zero, with exact rational arithmetic standing in for the float product).
* Python `dict` (insertion ordered) is modelled by an association list in
  insertion order; `list(set(xs))` is modelled by `xs.dedup` (the claims
  proved about it depend only on membership, length and duplicate-freeness,
  not on the unspecified ordering of a Python `set`).
-/

namespace ProjectAllocator

/-- `TeamMemberProfile` from `extractors/profile_extractor.py` (the fields the
analysis core reads). -/
structure TeamMemberProfile where
  name : String
  skills : List String
  experience_years : Int
  strengths : List String
deriving Repr, DecidableEq

/-- `WorkStream` from `extractors/spec_extractor.py` (the fields the analysis
core reads). -/
structure WorkStream where
  name : String
  required_skills : List String
  priority : String
deriving Repr, DecidableEq

/-- `ProjectSpec` from `extractors/spec_extractor.py` (the fields the analysis
core reads). -/
structure ProjectSpec where
  project_name : String
  work_streams : List WorkStream
  critical_skills : List String
deriving Repr, DecidableEq

/-- `MatchResult` from `analysis/matcher.py`. -/
structure MatchResult where
  team_member : String
  work_stream : String
  score : Int
  matching_skills : List String
  missing_skills : List String
  rationale : String
deriving Repr, DecidableEq

/-- Lower-case a string character-wise, as Python `str.lower()` does on ASCII
text. -/
def lowerStr (s : String) : String :=
  String.mk (s.data.map Char.toLower)

/-- Drop leading whitespace, the left half of Python `str.strip()`. -/
def trimLeft (l : List Char) : List Char :=
  l.dropWhile Char.isWhitespace

/-- Drop trailing whitespace, the right half of Python `str.strip()`. -/
def trimRight (l : List Char) : List Char :=
  (l.reverse.dropWhile Char.isWhitespace).reverse

/-- Python `str.strip()`: drop whitespace from both ends. -/
def stripChars (l : List Char) : List Char :=
  trimRight (trimLeft l)

/-- `normalize_skill` from `analysis/matcher.py`: `skill.lower().strip()`. -/
def normalize_skill (skill : String) : String :=
  String.mk (stripChars (lowerStr skill).data)

/-- Python's substring containment `a in b` on lists of characters. -/
def listIsInfix (a : List Char) : List Char → Bool
  | [] => a.isEmpty
  | b :: bs => a.isPrefixOf (b :: bs) || listIsInfix a bs

/-- Python's substring containment `a in b` for strings. -/
def isSubstr (a b : String) : Bool :=
  listIsInfix a.data b.data

/-- The fixed synonym table (`variations`) of `skills_match` in
`analysis/matcher.py`. -/
def variations : List (String × List String) :=
  [("python", ["python3", "python 3", "python programming"]),
   ("javascript", ["js", "node", "nodejs", "node.js"]),
   ("project management", ["pm", "pmp", "project manager"]),
   ("stakeholder management", ["stakeholder engagement", "client management"]),
   ("data analysis", ["data analytics", "analytics", "data analyst"]),
   ("excel", ["ms excel", "microsoft excel", "spreadsheets"]),
   ("powerpoint", ["ppt", "presentations", "ms powerpoint"]),
   ("communication", ["communications", "written communication", "verbal communication"]),
   ("leadership", ["team leadership", "people leadership", "lead"]),
   ("strategy", ["strategic planning", "strategic thinking", "strategist"])]

/-- `skills_match` from `analysis/matcher.py`: exact match after
normalization, mutual substring containment, or joint membership in one entry
of the synonym table (`all_forms = [base] + alts`). -/
def skills_match (skill1 skill2 : String) : Bool :=
  let s1 := normalize_skill skill1
  let s2 := normalize_skill skill2
  if s1 = s2 then true
  else if isSubstr s1 s2 || isSubstr s2 s1 then true
  else variations.any (fun v => (v.1 :: v.2).contains s1 && (v.1 :: v.2).contains s2)

/-- The pooled capability set `profile.skills + profile.strengths` used by
`calculate_match_score`. -/
def all_member_skills (profile : TeamMemberProfile) : List String :=
  profile.skills ++ profile.strengths

/-- The `matching` list of `calculate_match_score`: each required skill is
kept (in order, with its original spelling) when some pooled member skill
fuzzy-matches it; the inner `break` makes the loop equivalent to `List.any`. -/
def matching_of (profile : TeamMemberProfile) (ws : WorkStream) : List String :=
  ws.required_skills.filter
    (fun req => (all_member_skills profile).any (fun m => skills_match req m))

/-- The `missing` list of `calculate_match_score`:
`[s for s in required if s not in matching]`. -/
def missing_of (profile : TeamMemberProfile) (ws : WorkStream) : List String :=
  ws.required_skills.filter (fun s => !(decide (s ∈ matching_of profile ws)))

/-- The `base_score` of `calculate_match_score`:
`int((len(matching) / len(required)) * 100)`, i.e. truncation of the exact
ratio (Python `int()` truncates toward zero). -/
def base_score_of (profile : TeamMemberProfile) (ws : WorkStream) : Int :=
  ((100 * (matching_of profile ws).length) / ws.required_skills.length : Nat)

/-- The `exp_bonus` of `calculate_match_score`:
`min(profile.experience_years, 10)`. -/
def exp_bonus_of (profile : TeamMemberProfile) : Int :=
  min profile.experience_years 10

/-- The `final_score` of `calculate_match_score`:
`min(base_score + exp_bonus, 100)`. -/
def final_score_of (profile : TeamMemberProfile) (ws : WorkStream) : Int :=
  min (base_score_of profile ws + exp_bonus_of profile) 100

/-- The banded `rationale` string of `calculate_match_score`. -/
def rationale_of (profile : TeamMemberProfile) (ws : WorkStream) : String :=
  let m := toString (matching_of profile ws).length
  let r := toString ws.required_skills.length
  if 80 ≤ final_score_of profile ws then
    "Strong match: " ++ m ++ "/" ++ r ++ " required skills"
  else if 60 ≤ final_score_of profile ws then
    "Good match: " ++ m ++ "/" ++ r ++ " required skills"
  else if 40 ≤ final_score_of profile ws then
    "Partial match: " ++ m ++ "/" ++ r ++ " required skills"
  else
    "Limited match: " ++ m ++ "/" ++ r ++ " required skills"

/-- `calculate_match_score` from `analysis/matcher.py`. -/
def calculate_match_score (profile : TeamMemberProfile) (ws : WorkStream) : MatchResult :=
  if ws.required_skills = [] then
    { team_member := profile.name
      work_stream := ws.name
      score := 50
      matching_skills := []
      missing_skills := []
      rationale := "No specific skills defined for this work stream" }
  else
    { team_member := profile.name
      work_stream := ws.name
      score := final_score_of profile ws
      matching_skills := matching_of profile ws
      missing_skills := missing_of profile ws
      rationale := rationale_of profile ws }

/-- The descending-score ordering used by `get_recommended_assignments`
(`sort(key=lambda x: x.score, reverse=True)`); Python's sort is stable, as is
insertion sort with this relation. -/
def scoreDescOrder (a b : MatchResult) : Prop :=
  b.score ≤ a.score

instance : DecidableRel scoreDescOrder :=
  fun a b => inferInstanceAs (Decidable (b.score ≤ a.score))

instance : IsTotal MatchResult scoreDescOrder :=
  ⟨fun a b => le_total b.score a.score⟩

instance : IsTrans MatchResult scoreDescOrder :=
  ⟨fun _ _ _ h1 h2 => le_trans h2 h1⟩

/-- Python dict assignment `m[k] = v` on an insertion-ordered association
list: overwrite in place if the key exists, else append. -/
def dictInsert (m : List (String × List String)) (k : String) (v : List String) :
    List (String × List String) :=
  if m.any (fun p => p.1 = k) then m.map (fun p => if p.1 = k then (p.1, v) else p)
  else m ++ [(k, v)]

/-- The per-work-stream body of `get_recommended_assignments`: filter the
results to the work stream, stable-sort by descending score, keep scores
`>= 50`, and take the team-member names. -/
def recommended_for (match_results : List MatchResult) (wsName : String) : List String :=
  (((match_results.filter (fun r => decide (r.work_stream = wsName))).insertionSort
      scoreDescOrder).filter (fun r => decide (50 ≤ r.score))).map
    (fun m => m.team_member)

/-- `get_recommended_assignments` from `analysis/matcher.py`. The `profiles`
argument is accepted and unused, as in the source. -/
def get_recommended_assignments (match_results : List MatchResult)
    (profiles : List TeamMemberProfile) (project_spec : ProjectSpec) :
    List (String × List String) :=
  project_spec.work_streams.foldl
    (fun recs ws => dictInsert recs ws.name (recommended_for match_results ws.name)) []

/-- `SkillCoverage` from `analysis/gap_analyzer.py`. -/
structure SkillCoverage where
  skill : String
  required_by : List String
  covered_by : List String
  coverage_level : String
deriving Repr, DecidableEq

/-- `GapAnalysis` from `analysis/gap_analyzer.py`. -/
structure GapAnalysis where
  all_required_skills : List String
  skill_coverage : List SkillCoverage
  uncovered_skills : List String
  partially_covered : List String
  well_covered : List String
  team_strengths : List String
deriving Repr, DecidableEq

/-- The `if normalized not in map: map[normalized] = []` plus
`map[normalized].append(v)` idiom of `analyze_gaps`, on an insertion-ordered
association list. -/
def appendInsert (m : List (String × List String)) (k v : String) :
    List (String × List String) :=
  if m.any (fun p => p.1 = k) then
    m.map (fun p => if p.1 = k then (p.1, p.2 ++ [v]) else p)
  else m ++ [(k, [v])]

/-- The critical-skills pass of `analyze_gaps`: only adds the key (with source
label "Critical") when it is not already present. -/
def criticalInsert (m : List (String × List String)) (k : String) :
    List (String × List String) :=
  if m.any (fun p => p.1 = k) then m else m ++ [(k, ["Critical"])]

/-- The (work-stream name, skill) pairs visited by the nested required-skills
loops of `analyze_gaps`, in loop order. -/
def reqSkillPairs (ps : ProjectSpec) : List (String × String) :=
  ps.work_streams.flatMap (fun ws => ws.required_skills.map (fun s => (ws.name, s)))

/-- `required_skills_map` of `analyze_gaps`: work-stream skills first, then
critical skills. -/
def required_skills_map (ps : ProjectSpec) : List (String × List String) :=
  ps.critical_skills.foldl (fun m skill => criticalInsert m (normalize_skill skill))
    ((reqSkillPairs ps).foldl (fun m p => appendInsert m (normalize_skill p.2) p.1) [])

/-- The (profile name, skill) pairs visited by the team-skills loops of
`analyze_gaps`, in loop order. -/
def teamSkillPairs (profiles : List TeamMemberProfile) : List (String × String) :=
  profiles.flatMap (fun p => (all_member_skills p).map (fun s => (p.name, s)))

/-- `team_skills_map` of `analyze_gaps`. -/
def team_skills_map (profiles : List TeamMemberProfile) : List (String × List String) :=
  (teamSkillPairs profiles).foldl
    (fun m q => appendInsert m (normalize_skill q.2) q.1) []

/-- The `covered_by` computation of `analyze_gaps`: extend by the members of
every team-skill entry that fuzzy-matches, then `list(set(...))` (modelled by
`dedup`; the properties proved depend only on membership and length). -/
def covered_by_for (team_map : List (String × List String)) (req_skill : String) :
    List String :=
  ((team_map.filter (fun p => skills_match req_skill p.1)).flatMap (fun p => p.2)).dedup

/-- The coverage-level classification of `analyze_gaps` as a function of
`len(covered_by)`. -/
def coverage_level_for (n : Nat) : String :=
  if n = 0 then "none" else if n = 1 then "partial" else if n = 2 then "good" else "strong"

/-- `analyze_gaps` from `analysis/gap_analyzer.py`. The per-required-skill
loop appends to `skill_coverage` and to exactly one of the `uncovered` /
`partial` / `well_covered` lists, which is rendered here as one map and three
filters over the same insertion-ordered keys. -/
def analyze_gaps (profiles : List TeamMemberProfile) (project_spec : ProjectSpec) :
    GapAnalysis :=
  let req_map := required_skills_map project_spec
  let team_map := team_skills_map profiles
  { all_required_skills := req_map.map Prod.fst
    skill_coverage := req_map.map (fun p =>
      { skill := p.1
        required_by := p.2
        covered_by := covered_by_for team_map p.1
        coverage_level := coverage_level_for (covered_by_for team_map p.1).length })
    uncovered_skills :=
      (req_map.map Prod.fst).filter (fun k => decide ((covered_by_for team_map k).length = 0))
    partially_covered :=
      (req_map.map Prod.fst).filter (fun k => decide ((covered_by_for team_map k).length = 1))
    well_covered :=
      (req_map.map Prod.fst).filter (fun k => decide (2 ≤ (covered_by_for team_map k).length))
    team_strengths :=
      ((team_map.map Prod.fst).filter
        (fun t => !(req_map.any (fun p => skills_match t p.1)))).take 10 }

/-- Key accumulation step shared by the insertion-ordered maps: append a key
only when it is not already present. -/
def addKey (acc : List String) (x : String) : List String :=
  if x ∈ acc then acc else acc ++ [x]

/-- Modelled from the spec: "keyed by first appearance" — keep the first
occurrence of each string, preserving order. -/
def firstDedup (l : List String) : List String :=
  l.foldl addKey []

/-- Modelled from the spec (§4.4 step 4): "every normalized team skill that
does NOT fuzzy-match any required skill, order of first appearance, truncated
to the first 10". Stated independently of `analyze_gaps` so the two can be
compared. -/
def spec_team_strengths (profiles : List TeamMemberProfile) (ps : ProjectSpec) :
    List String :=
  ((firstDedup ((teamSkillPairs profiles).map (fun q => normalize_skill q.2))).filter
    (fun t =>
      !(((reqSkillPairs ps).map (fun p => normalize_skill p.2) ++
          ps.critical_skills.map normalize_skill).any (fun r => skills_match t r)))).take 10

/-! ### Helper lemmas about characters and normalization -/

lemma char_toNat_ofNat (n : Nat) (h : n.isValidChar) : (Char.ofNat n).toNat = n := by
  unfold Char.ofNat
  rw [dif_pos h]
  rfl

lemma toLower_toLower (c : Char) : Char.toLower (Char.toLower c) = Char.toLower c := by
  simp only [Char.toLower]
  split
  · next h =>
    have hv : (c.toNat + 32).isValidChar := Or.inl (by omega)
    rw [char_toNat_ofNat _ hv, if_neg (by omega)]
  · next h =>
    rfl

lemma mem_trimRight {c : Char} {l : List Char} (h : c ∈ trimRight l) : c ∈ l := by
  unfold trimRight at h
  rw [List.mem_reverse] at h
  have := List.dropWhile_subset Char.isWhitespace h
  rwa [List.mem_reverse] at this

lemma mem_stripChars {c : Char} {l : List Char} (h : c ∈ stripChars l) : c ∈ l := by
  unfold stripChars at h
  exact List.dropWhile_subset Char.isWhitespace (mem_trimRight h)

lemma dropWhile_dropWhile {α : Type} (p : α → Bool) (l : List α) :
    (l.dropWhile p).dropWhile p = l.dropWhile p := by
  cases h : l.dropWhile p with
  | nil => rfl
  | cons c cs =>
    have h2 := List.head?_dropWhile_not p l
    rw [h] at h2
    simp only [List.head?_cons] at h2
    simp [h2]

lemma trimRight_trimRight (l : List Char) : trimRight (trimRight l) = trimRight l := by
  unfold trimRight
  rw [List.reverse_reverse, dropWhile_dropWhile]

lemma trimRight_append (l : List Char) : ∃ u, trimRight l ++ u = l := by
  obtain ⟨u, hu⟩ := List.dropWhile_suffix (l := l.reverse) Char.isWhitespace
  refine ⟨u.reverse, ?_⟩
  have := congrArg List.reverse hu
  rw [List.reverse_append, List.reverse_reverse] at this
  exact this

lemma stripChars_stripChars (l : List Char) : stripChars (stripChars l) = stripChars l := by
  unfold stripChars
  obtain ⟨u, hu⟩ := trimRight_append (trimLeft l)
  cases ht : trimRight (trimLeft l) with
  | nil =>
    simp [trimLeft, trimRight]
  | cons c cs =>
    have hhead : Char.isWhitespace c = false := by
      have h2 := List.head?_dropWhile_not Char.isWhitespace l
      have hl1 : trimLeft l = c :: (cs ++ u) := by
        rw [← hu, ht]
        rfl
      unfold trimLeft at hl1
      rw [hl1] at h2
      simpa using h2
    have hTL : trimLeft (c :: cs) = c :: cs := by
      unfold trimLeft
      simp [hhead]
    rw [hTL, ← ht, trimRight_trimRight]

lemma map_toLower_stripChars (l : List Char) :
    (stripChars (l.map Char.toLower)).map Char.toLower = stripChars (l.map Char.toLower) := by
  conv_rhs => rw [← List.map_id (stripChars (l.map Char.toLower))]
  apply List.map_congr_left
  intro c hc
  obtain ⟨d, _, hd⟩ := List.mem_map.mp (mem_stripChars hc)
  simp only [id_eq]
  rw [← hd, toLower_toLower]

/-- C9: `normalize_skill` (lower-case then trim, and nothing else) is
idempotent: `normalize_skill (normalize_skill s) = normalize_skill s`. -/
theorem normalize_skill_idempotent (s : String) :
    normalize_skill (normalize_skill s) = normalize_skill s := by
  show String.mk (stripChars ((stripChars (lowerStr s).data).map Char.toLower)) =
    String.mk (stripChars (lowerStr s).data)
  rw [show (lowerStr s).data = s.data.map Char.toLower from rfl]
  rw [map_toLower_stripChars, stripChars_stripChars]

/-! ### Symmetry of `skills_match` -/

lemma any_and_comm {α : Type} (l : List α) (f g : α → Bool) :
    l.any (fun v => f v && g v) = l.any (fun v => g v && f v) := by
  induction l with
  | nil => rfl
  | cons x xs ih =>
    simp only [List.any_cons, ih]
    cases hf : f x <;> cases hg : g x <;> simp [hf, hg]

lemma skills_match_comm (a b : String) : skills_match a b = skills_match b a := by
  simp only [skills_match]
  by_cases h : normalize_skill a = normalize_skill b
  · rw [if_pos h, if_pos h.symm]
  · have h' : ¬ normalize_skill b = normalize_skill a := fun hh => h hh.symm
    rw [if_neg h, if_neg h']
    rw [Bool.or_comm]
    split
    · rfl
    · exact any_and_comm variations _ _

/-- C8: `skills_match` is symmetric — each of its three tests (exact
equality after normalization, mutual substring containment, joint synonym
table membership) is symmetric in its two arguments. -/
theorem skills_match_symm (a b : String) : skills_match a b = skills_match b a :=
  skills_match_comm a b

/-! ### Degenerate inputs to `skills_match` and the neutral branch -/

lemma listIsInfix_nil (b : List Char) : listIsInfix [] b = true := by
  cases b <;> rfl

lemma skills_match_of_normalize_empty {a : String} (b : String)
    (h : normalize_skill a = "") : skills_match a b = true := by
  simp only [skills_match]
  by_cases he : normalize_skill a = normalize_skill b
  · rw [if_pos he]
  · have hsub : (isSubstr (normalize_skill a) (normalize_skill b) ||
        isSubstr (normalize_skill b) (normalize_skill a)) = true := by
      rw [h]
      have hinf : isSubstr "" (normalize_skill b) = true := listIsInfix_nil _
      rw [hinf, Bool.true_or]
    rw [if_neg he, if_pos hsub]

/-- C10: whenever `normalize_skill a` is empty (`a` empty or
whitespace-only), `skills_match a b` is true for every `b`, because the empty
string is a substring of every string; consequently an empty or
whitespace-only required skill is reported as matched by any profile whose
pooled skill set is non-empty. -/
theorem empty_skill_matches_everything :
    (∀ a b : String, normalize_skill a = "" → skills_match a b = true) ∧
    (∀ (p : TeamMemberProfile) (ws : WorkStream) (req : String),
      normalize_skill req = "" → req ∈ ws.required_skills →
      all_member_skills p ≠ [] →
      req ∈ (calculate_match_score p ws).matching_skills) := by
  constructor
  · intro a b h
    exact skills_match_of_normalize_empty b h
  · intro p ws req hemp hreq hpool
    have hne : ws.required_skills ≠ [] := by
      intro hcon
      rw [hcon] at hreq
      exact absurd hreq (List.not_mem_nil req)
    unfold calculate_match_score
    rw [if_neg hne]
    show req ∈ matching_of p ws
    apply List.mem_filter.mpr
    refine ⟨hreq, ?_⟩
    cases hm : all_member_skills p with
    | nil => exact absurd hm hpool
    | cons x xs =>
      simp only [List.any_cons, skills_match_of_normalize_empty x hemp, Bool.true_or]

/-- Witness for C10 at a whitespace-only skill and a one-skill profile. -/
theorem empty_skill_matches_everything_witness :
    skills_match "  " "sql" = true ∧
    " " ∈ (calculate_match_score ⟨"A", ["x"], 0, []⟩
        ⟨"W", [" ", "python"], "high"⟩).matching_skills :=
  ⟨empty_skill_matches_everything.1 "  " "sql" (by decide),
   empty_skill_matches_everything.2 ⟨"A", ["x"], 0, []⟩ ⟨"W", [" ", "python"], "high"⟩ " "
     (by decide) (by decide) (by decide)⟩

/-- C6: for a work stream with empty `required_skills`,
`calculate_match_score` returns the fixed neutral result — score 50, empty
matched/missing lists and the "no skills defined" rationale — regardless of
the profile. -/
theorem calculate_match_score_no_required (p : TeamMemberProfile) (ws : WorkStream)
    (h : ws.required_skills = []) :
    calculate_match_score p ws =
      { team_member := p.name
        work_stream := ws.name
        score := 50
        matching_skills := []
        missing_skills := []
        rationale := "No specific skills defined for this work stream" } := by
  unfold calculate_match_score
  rw [if_pos h]

/-- Witness for C6 at a concrete profile and skill-less work stream. -/
theorem calculate_match_score_no_required_witness :
    calculate_match_score ⟨"Dana", ["python", "sql"], 7, ["lead"]⟩ ⟨"W", [], "low"⟩ =
      ⟨"Dana", "W", 50, [], [], "No specific skills defined for this work stream"⟩ :=
  calculate_match_score_no_required _ _ rfl

/-! ### Score bounds -/

/-- C2: for every profile with non-negative `experience_years` and every work
stream, the experience bonus lies in `[0, 10]` and the returned score lies in
`[0, 100]`. -/
theorem calculate_match_score_bounds (p : TeamMemberProfile) (ws : WorkStream)
    (h : 0 ≤ p.experience_years) :
    0 ≤ exp_bonus_of p ∧ exp_bonus_of p ≤ 10 ∧
    0 ≤ (calculate_match_score p ws).score ∧ (calculate_match_score p ws).score ≤ 100 := by
  have hb0 : 0 ≤ exp_bonus_of p := le_min h (by norm_num)
  have hb10 : exp_bonus_of p ≤ 10 := min_le_right _ _
  refine ⟨hb0, hb10, ?_, ?_⟩ <;> unfold calculate_match_score <;>
    by_cases hr : ws.required_skills = []
  · rw [if_pos hr]
    show (0 : Int) ≤ 50
    norm_num
  · rw [if_neg hr]
    show 0 ≤ final_score_of p ws
    unfold final_score_of
    apply le_min
    · have hbase : (0 : Int) ≤ base_score_of p ws := Int.natCast_nonneg _
      exact add_nonneg hbase hb0
    · norm_num
  · rw [if_pos hr]
    show (50 : Int) ≤ 100
    norm_num
  · rw [if_neg hr]
    show final_score_of p ws ≤ 100
    exact min_le_right _ _

/-- Witness for C2 at a concrete profile/work stream. -/
theorem calculate_match_score_bounds_witness :
    0 ≤ (calculate_match_score ⟨"Eve", ["python"], 3, []⟩ ⟨"W", ["python", "sql"], "high"⟩).score ∧
    (calculate_match_score ⟨"Eve", ["python"], 3, []⟩ ⟨"W", ["python", "sql"], "high"⟩).score ≤ 100 :=
  ⟨(calculate_match_score_bounds _ _ (by decide)).2.2.1,
   (calculate_match_score_bounds _ _ (by decide)).2.2.2⟩

/-! ### The worked example (spec section 8) -/

/-- C1 counterexample: on the spec's own example — profile Alice with skills
["Python", "Excel"] and 6 years of experience, against required skills
["python", "excel", "SQL"] — the final score is 72, not the claimed 73,
because `int((2 / 3) * 100)` truncates to 66 rather than rounding to 67. -/
theorem alice_example_score_not_73 :
    ¬((calculate_match_score ⟨"Alice", ["Python", "Excel"], 6, []⟩
        ⟨"Analysis", ["python", "excel", "SQL"], "high"⟩).score = 73) := by
  decide

/-- C1 amended: the base score truncates (`int(...)` = floor for these
non-negative ratios), so on the example the matched list is
["python", "excel"], the base score is 66, the experience bonus 6, the final
score 72, and the rationale "Good match: 2/3 required skills". -/
theorem alice_example_values :
    matching_of ⟨"Alice", ["Python", "Excel"], 6, []⟩
        ⟨"Analysis", ["python", "excel", "SQL"], "high"⟩ = ["python", "excel"] ∧
    base_score_of ⟨"Alice", ["Python", "Excel"], 6, []⟩
        ⟨"Analysis", ["python", "excel", "SQL"], "high"⟩ = 66 ∧
    exp_bonus_of ⟨"Alice", ["Python", "Excel"], 6, []⟩ = 6 ∧
    (calculate_match_score ⟨"Alice", ["Python", "Excel"], 6, []⟩
        ⟨"Analysis", ["python", "excel", "SQL"], "high"⟩).score = 72 ∧
    (calculate_match_score ⟨"Alice", ["Python", "Excel"], 6, []⟩
        ⟨"Analysis", ["python", "excel", "SQL"], "high"⟩).missing_skills = ["SQL"] ∧
    (calculate_match_score ⟨"Alice", ["Python", "Excel"], 6, []⟩
        ⟨"Analysis", ["python", "excel", "SQL"], "high"⟩).rationale =
      "Good match: 2/3 required skills" := by
  decide

/-! ### Matching/missing lists partition the required skills -/

/-- C3: for a work stream with non-empty `required_skills`, every occurrence
of a required skill lands in exactly one of `matching_skills` and
`missing_skills`: the occurrence counts add up to the count in
`required_skills`, and no skill appears in both lists. -/
theorem matching_missing_partition (p : TeamMemberProfile) (ws : WorkStream)
    (hne : ws.required_skills ≠ []) (s : String) :
    List.count s (calculate_match_score p ws).matching_skills +
      List.count s (calculate_match_score p ws).missing_skills =
      List.count s ws.required_skills ∧
    ¬(s ∈ (calculate_match_score p ws).matching_skills ∧
      s ∈ (calculate_match_score p ws).missing_skills) := by
  unfold calculate_match_score
  rw [if_neg hne]
  show List.count s (matching_of p ws) + List.count s (missing_of p ws) =
      List.count s ws.required_skills ∧
    ¬(s ∈ matching_of p ws ∧ s ∈ missing_of p ws)
  constructor
  · by_cases hm : s ∈ matching_of p ws
    · have hP := (List.mem_filter.mp hm).2
      have h1 : List.count s (matching_of p ws) = List.count s ws.required_skills :=
        List.count_filter hP
      have h2 : List.count s (missing_of p ws) = 0 := by
        rw [List.count_eq_zero]
        intro hcon
        have hq := (List.mem_filter.mp hcon).2
        simp only [Bool.not_eq_true', decide_eq_false_iff_not] at hq
        exact hq hm
      omega
    · have h1 : List.count s (matching_of p ws) = 0 := List.count_eq_zero.mpr hm
      have h2 : List.count s (missing_of p ws) = List.count s ws.required_skills := by
        apply List.count_filter
        simp only [Bool.not_eq_true', decide_eq_false_iff_not]
        exact hm
      omega
  · rintro ⟨h1, h2⟩
    have hq := (List.mem_filter.mp h2).2
    simp only [Bool.not_eq_true', decide_eq_false_iff_not] at hq
    exact hq h1

/-- Witness for C3 on the Alice example at the skill "SQL". -/
theorem matching_missing_partition_witness :
    List.count "SQL" (calculate_match_score ⟨"Alice", ["Python", "Excel"], 6, []⟩
        ⟨"Analysis", ["python", "excel", "SQL"], "high"⟩).matching_skills +
      List.count "SQL" (calculate_match_score ⟨"Alice", ["Python", "Excel"], 6, []⟩
        ⟨"Analysis", ["python", "excel", "SQL"], "high"⟩).missing_skills =
      List.count "SQL" ["python", "excel", "SQL"] :=
  (matching_missing_partition ⟨"Alice", ["Python", "Excel"], 6, []⟩
    ⟨"Analysis", ["python", "excel", "SQL"], "high"⟩ (by decide) "SQL").1

/-! ### Recommended assignments (C5) -/

lemma lookup_overwrite_self (m : List (String × List String)) (k : String)
    (v : List String) (hk : k ∈ m.map Prod.fst) :
    List.lookup k (m.map (fun p => if p.1 = k then (p.1, v) else p)) = some v := by
  induction m with
  | nil => simp at hk
  | cons a m' ih =>
    by_cases ha : a.1 = k
    · rw [List.map_cons, if_pos ha]
      cases a with
      | mk a1 a2 =>
        simp only at ha
        rw [List.lookup_cons]
        simp [ha]
    · rw [List.map_cons, if_neg ha]
      cases a with
      | mk a1 a2 =>
        simp only at ha
        rw [List.lookup_cons]
        have hbeq : (k == a1) = false := by
          simp only [beq_eq_false_iff_ne, ne_eq]
          exact fun hh => ha hh.symm
        rw [hbeq]
        apply ih
        simp only [List.map_cons, List.mem_cons] at hk
        rcases hk with hk | hk
        · exact absurd hk.symm ha
        · exact hk

lemma lookup_overwrite_ne (m : List (String × List String)) (k k' : String)
    (v : List String) (hne : ¬ k' = k) :
    List.lookup k' (m.map (fun p => if p.1 = k then (p.1, v) else p)) =
      List.lookup k' m := by
  induction m with
  | nil => rfl
  | cons a m' ih =>
    cases a with
    | mk a1 a2 =>
      by_cases hk' : k' = a1
      · have ha1 : ¬ a1 = k := fun hh => hne (hk'.trans hh)
        rw [List.map_cons, if_neg ha1, List.lookup_cons, List.lookup_cons]
        simp [hk']
      · have hbeq : (k' == a1) = false := by
          simp only [beq_eq_false_iff_ne, ne_eq]
          exact hk'
        rw [List.map_cons]
        by_cases ha1 : a1 = k
        · rw [if_pos ha1, List.lookup_cons, List.lookup_cons, hbeq, ih]
        · rw [if_neg ha1, List.lookup_cons, List.lookup_cons, hbeq, ih]

lemma lookup_append_single_self (m : List (String × List String)) (k : String)
    (v : List String) :
    List.lookup k (m ++ [(k, v)]) = match List.lookup k m with
      | some w => some w
      | none => some v := by
  induction m with
  | nil => simp [List.lookup_cons]
  | cons a m' ih =>
    cases a with
    | mk a1 a2 =>
      rw [List.cons_append, List.lookup_cons, List.lookup_cons]
      cases hbeq : (k == a1) with
      | true => rfl
      | false => exact ih

lemma lookup_append_single_ne (m : List (String × List String)) (k k' : String)
    (v : List String) (hne : ¬ k' = k) :
    List.lookup k' (m ++ [(k, v)]) = List.lookup k' m := by
  induction m with
  | nil =>
    rw [List.nil_append, List.lookup_cons]
    have hbeq : (k' == k) = false := by
      simp only [beq_eq_false_iff_ne, ne_eq]
      exact hne
    rw [hbeq]
  | cons a m' ih =>
    cases a with
    | mk a1 a2 =>
      rw [List.cons_append, List.lookup_cons, List.lookup_cons]
      cases hbeq : (k' == a1) with
      | true => rfl
      | false => exact ih

lemma lookup_none_of_not_mem_keys (m : List (String × List String)) (k : String)
    (hk : ¬ k ∈ m.map Prod.fst) : List.lookup k m = none := by
  induction m with
  | nil => rfl
  | cons a m' ih =>
    cases a with
    | mk a1 a2 =>
      simp only [List.map_cons, List.mem_cons, not_or] at hk
      rw [List.lookup_cons]
      have hbeq : (k == a1) = false := by
        simp only [beq_eq_false_iff_ne, ne_eq]
        exact hk.1
      rw [hbeq]
      exact ih hk.2

lemma any_key_iff (m : List (String × List String)) (k : String) :
    m.any (fun p => decide (p.1 = k)) = true ↔ k ∈ m.map Prod.fst := by
  rw [List.any_eq_true]
  constructor
  · rintro ⟨p, hp, hpk⟩
    exact List.mem_map.mpr ⟨p, hp, by simpa using hpk.symm⟩
  · intro hk
    obtain ⟨p, hp, hpk⟩ := List.mem_map.mp hk
    exact ⟨p, hp, by simp [hpk]⟩

lemma lookup_dictInsert (m : List (String × List String)) (k : String)
    (v : List String) : List.lookup k (dictInsert m k v) = some v := by
  unfold dictInsert
  by_cases hany : m.any (fun p => decide (p.1 = k)) = true
  · rw [if_pos hany]
    exact lookup_overwrite_self m k v ((any_key_iff m k).mp hany)
  · rw [if_neg hany]
    rw [lookup_append_single_self]
    have hnone : List.lookup k m = none := by
      apply lookup_none_of_not_mem_keys
      intro hmem
      exact hany ((any_key_iff m k).mpr hmem)
    rw [hnone]

lemma lookup_dictInsert_ne (m : List (String × List String)) (k k' : String)
    (v : List String) (hne : ¬ k' = k) :
    List.lookup k' (dictInsert m k v) = List.lookup k' m := by
  unfold dictInsert
  by_cases hany : m.any (fun p => decide (p.1 = k)) = true
  · rw [if_pos hany]
    exact lookup_overwrite_ne m k k' v hne
  · rw [if_neg hany]
    exact lookup_append_single_ne m k k' v hne

lemma lookup_foldl_dictInsert_preserve (f : String → List String)
    (wss : List WorkStream) (m : List (String × List String)) (n : String)
    (h : List.lookup n m = some (f n)) :
    List.lookup n
      (wss.foldl (fun recs ws => dictInsert recs ws.name (f ws.name)) m) = some (f n) := by
  induction wss generalizing m with
  | nil => exact h
  | cons ws wss' ih =>
    apply ih
    by_cases hn : n = ws.name
    · subst hn
      exact lookup_dictInsert m ws.name (f ws.name)
    · rw [lookup_dictInsert_ne _ _ _ _ hn]
      exact h

lemma lookup_foldl_dictInsert_mem (f : String → List String)
    (wss : List WorkStream) (m : List (String × List String)) (n : String)
    (h : n ∈ wss.map (fun ws => ws.name)) :
    List.lookup n
      (wss.foldl (fun recs ws => dictInsert recs ws.name (f ws.name)) m) = some (f n) := by
  induction wss generalizing m with
  | nil => simp at h
  | cons ws wss' ih =>
    by_cases hn : n = ws.name
    · subst hn
      exact lookup_foldl_dictInsert_preserve f wss' (dictInsert m ws.name (f ws.name))
        ws.name (lookup_dictInsert m ws.name (f ws.name))
    · apply ih
      simp only [List.map_cons, List.mem_cons] at h
      rcases h with h | h
      · exact absurd h hn
      · exact h

lemma filter_scoreEq_orderedInsert (x : MatchResult) (l : List MatchResult) (k : Int) :
    (List.orderedInsert scoreDescOrder x l).filter (fun r => decide (r.score = k)) =
      if x.score = k then x :: l.filter (fun r => decide (r.score = k))
      else l.filter (fun r => decide (r.score = k)) := by
  induction l with
  | nil =>
    by_cases hx : x.score = k <;> simp [List.orderedInsert, List.filter, hx]
  | cons b bs ih =>
    simp only [List.orderedInsert]
    split
    · next hle =>
      rw [List.filter_cons]
      by_cases hx : x.score = k <;> simp [hx]
    · next hgt =>
      have hlt : x.score < b.score := by
        have : ¬ b.score ≤ x.score := hgt
        omega
      rw [List.filter_cons, List.filter_cons]
      by_cases hb : b.score = k
      · by_cases hx : x.score = k
        · exfalso
          omega
        · simp [hb, hx, ih]
      · by_cases hx : x.score = k <;> simp [hb, hx, ih]

lemma filter_scoreEq_insertionSort (l : List MatchResult) (k : Int) :
    (List.insertionSort scoreDescOrder l).filter (fun r => decide (r.score = k)) =
      l.filter (fun r => decide (r.score = k)) := by
  induction l with
  | nil => rfl
  | cons x xs ih =>
    simp only [List.insertionSort]
    rw [filter_scoreEq_orderedInsert, List.filter_cons]
    by_cases hx : x.score = k <;> simp [hx, ih]

/-- C5: for every work stream of the project spec, the recommendations map
holds an entry for that work stream whose value is the team-member names of a
list `sorted_qual` of match results that (i) is sorted by descending score,
(ii) contains only results of that work stream from the input with score at
least 50, and (iii) agrees, score by score, with the qualifying results in
their original input order (tie stability). A work stream with no qualifying
result maps to the empty list (the entry still exists). -/
theorem get_recommended_assignments_spec (match_results : List MatchResult)
    (profiles : List TeamMemberProfile) (ps : ProjectSpec) (ws : WorkStream)
    (hws : ws ∈ ps.work_streams) :
    ∃ sorted_qual : List MatchResult,
      List.lookup ws.name (get_recommended_assignments match_results profiles ps) =
        some (sorted_qual.map (fun r => r.team_member)) ∧
      List.Pairwise (fun a b => b.score ≤ a.score) sorted_qual ∧
      (∀ r ∈ sorted_qual, r ∈ match_results ∧ r.work_stream = ws.name ∧ 50 ≤ r.score) ∧
      (∀ k : Int, sorted_qual.filter (fun r => decide (r.score = k)) =
        ((match_results.filter (fun r => decide (r.work_stream = ws.name))).filter
          (fun r => decide (50 ≤ r.score))).filter (fun r => decide (r.score = k))) := by
  refine ⟨((match_results.filter
      (fun r => decide (r.work_stream = ws.name))).insertionSort scoreDescOrder).filter
        (fun r => decide (50 ≤ r.score)), ?_, ?_, ?_, ?_⟩
  · exact lookup_foldl_dictInsert_mem (fun n => recommended_for match_results n)
      ps.work_streams [] ws.name (List.mem_map.mpr ⟨ws, hws, rfl⟩)
  · have hsorted : List.Pairwise scoreDescOrder
        ((match_results.filter
          (fun r => decide (r.work_stream = ws.name))).insertionSort scoreDescOrder) :=
      List.sorted_insertionSort scoreDescOrder _
    exact hsorted.sublist (List.filter_sublist _)
  · intro r hr
    have h1 := List.mem_filter.mp hr
    have h2 : r ∈ match_results.filter (fun r => decide (r.work_stream = ws.name)) :=
      (List.perm_insertionSort scoreDescOrder _).mem_iff.mp h1.1
    have h3 := List.mem_filter.mp h2
    exact ⟨h3.1, by simpa using h3.2, by simpa using h1.2⟩
  · intro k
    rw [List.filter_filter, List.filter_filter]
    by_cases hk : 50 ≤ k
    · have hpoint : ∀ r : MatchResult,
          (decide (r.score = k) && decide (50 ≤ r.score)) = decide (r.score = k) := by
        intro r
        by_cases hr : r.score = k
        · simp [hr, hk]
        · simp [hr]
      rw [List.filter_congr (fun r _ => hpoint r), List.filter_congr (fun r _ => hpoint r)]
      exact filter_scoreEq_insertionSort _ k
    · have hpoint : ∀ r : MatchResult,
          (decide (r.score = k) && decide (50 ≤ r.score)) = false := by
        intro r
        by_cases hr : r.score = k
        · simp [hr, hk]
        · simp [hr]
      rw [List.filter_congr (fun r _ => (hpoint r).trans rfl),
        List.filter_congr (fun r _ => (hpoint r).trans rfl)]
      simp

/-- Witness for C5 at a two-result input: the "A" work stream gets an entry. -/
theorem get_recommended_assignments_spec_witness :
    (List.lookup "A" (get_recommended_assignments
      [⟨"Bob", "A", 60, [], [], ""⟩, ⟨"Amy", "A", 40, [], [], ""⟩] []
      ⟨"P", [⟨"A", ["x"], "high"⟩], []⟩)).isSome = true := by
  obtain ⟨l, hl, -, -, -⟩ := get_recommended_assignments_spec
    [⟨"Bob", "A", 60, [], [], ""⟩, ⟨"Amy", "A", 40, [], [], ""⟩] []
    ⟨"P", [⟨"A", ["x"], "high"⟩], []⟩ ⟨"A", ["x"], "high"⟩ (by decide)
  have hl' : List.lookup "A" (get_recommended_assignments
      [⟨"Bob", "A", 60, [], [], ""⟩, ⟨"Amy", "A", 40, [], [], ""⟩] []
      ⟨"P", [⟨"A", ["x"], "high"⟩], []⟩) = some (l.map (fun r => r.team_member)) := hl
  rw [hl']
  rfl

/-! ### Gap analysis (C4, C7) -/

lemma keys_appendInsert (m : List (String × List String)) (k v : String) :
    (appendInsert m k v).map Prod.fst = addKey (m.map Prod.fst) k := by
  unfold appendInsert addKey
  by_cases h : k ∈ m.map Prod.fst
  · rw [if_pos ((any_key_iff m k).mpr h), if_pos h, List.map_map]
    apply List.map_congr_left
    intro p _
    by_cases hpk : p.1 = k <;> simp [hpk]
  · rw [if_neg (fun hh => h ((any_key_iff m k).mp hh)), if_neg h, List.map_append]
    rfl

lemma keys_criticalInsert (m : List (String × List String)) (k : String) :
    (criticalInsert m k).map Prod.fst = addKey (m.map Prod.fst) k := by
  unfold criticalInsert addKey
  by_cases h : k ∈ m.map Prod.fst
  · rw [if_pos ((any_key_iff m k).mpr h), if_pos h]
  · rw [if_neg (fun hh => h ((any_key_iff m k).mp hh)), if_neg h, List.map_append]
    rfl

lemma keys_foldl_appendInsert (l : List (String × String)) (m : List (String × List String)) :
    ((l.foldl (fun m p => appendInsert m (normalize_skill p.2) p.1) m).map Prod.fst) =
      (l.map (fun p => normalize_skill p.2)).foldl addKey (m.map Prod.fst) := by
  induction l generalizing m with
  | nil => rfl
  | cons a l' ih =>
    rw [List.foldl_cons, List.map_cons, List.foldl_cons, ih, keys_appendInsert]

lemma keys_foldl_criticalInsert (l : List String) (m : List (String × List String)) :
    ((l.foldl (fun m s => criticalInsert m (normalize_skill s)) m).map Prod.fst) =
      (l.map normalize_skill).foldl addKey (m.map Prod.fst) := by
  induction l generalizing m with
  | nil => rfl
  | cons a l' ih =>
    rw [List.foldl_cons, List.map_cons, List.foldl_cons, ih, keys_criticalInsert]

lemma keys_required_skills_map (ps : ProjectSpec) :
    (required_skills_map ps).map Prod.fst =
      ((reqSkillPairs ps).map (fun p => normalize_skill p.2) ++
        ps.critical_skills.map normalize_skill).foldl addKey [] := by
  unfold required_skills_map
  rw [keys_foldl_criticalInsert, keys_foldl_appendInsert, List.foldl_append]
  rfl

lemma keys_team_skills_map (profiles : List TeamMemberProfile) :
    (team_skills_map profiles).map Prod.fst =
      firstDedup ((teamSkillPairs profiles).map (fun q => normalize_skill q.2)) := by
  unfold team_skills_map firstDedup
  rw [keys_foldl_appendInsert]
  rfl

lemma mem_foldl_addKey (l : List String) (acc : List String) (x : String) :
    x ∈ l.foldl addKey acc ↔ x ∈ acc ∨ x ∈ l := by
  induction l generalizing acc with
  | nil => simp
  | cons y l' ih =>
    rw [List.foldl_cons, ih]
    unfold addKey
    by_cases h : y ∈ acc
    · rw [if_pos h]
      simp only [List.mem_cons]
      constructor
      · rintro (hx | hx)
        · exact Or.inl hx
        · exact Or.inr (Or.inr hx)
      · rintro (hx | hx | hx)
        · exact Or.inl hx
        · exact Or.inl (hx ▸ h)
        · exact Or.inr hx
    · rw [if_neg h]
      simp only [List.mem_append, List.mem_singleton, List.mem_cons]
      tauto

lemma nodup_foldl_addKey (l : List String) (acc : List String) (h : acc.Nodup) :
    (l.foldl addKey acc).Nodup := by
  induction l generalizing acc with
  | nil => exact h
  | cons y l' ih =>
    rw [List.foldl_cons]
    apply ih
    unfold addKey
    by_cases hy : y ∈ acc
    · rwa [if_pos hy]
    · rw [if_neg hy]
      simp [List.nodup_append, h, hy]

lemma mem_keys_required_skills_map (ps : ProjectSpec) (s : String) :
    s ∈ (required_skills_map ps).map Prod.fst ↔
      s ∈ (ps.work_streams.flatMap (fun ws => ws.required_skills) ++
        ps.critical_skills).map normalize_skill := by
  rw [keys_required_skills_map, mem_foldl_addKey]
  simp only [List.not_mem_nil, false_or, List.mem_append, List.mem_map,
    List.mem_flatMap, reqSkillPairs]
  constructor
  · rintro (⟨p, ⟨ws, hws, hp⟩, hs⟩ | ⟨c, hc, hs⟩)
    · obtain ⟨sk, hsk, hskp⟩ := hp
      refine ⟨sk, Or.inl ⟨ws, hws, hsk⟩, ?_⟩
      rw [← hskp] at hs
      exact hs
    · exact ⟨c, Or.inr hc, hs⟩
  · rintro ⟨x, hx | hx, hs⟩
    · obtain ⟨ws, hws, hxw⟩ := hx
      exact Or.inl ⟨(ws.name, x), ⟨ws, hws, ⟨x, hxw, rfl⟩⟩, hs⟩
    · exact Or.inr ⟨x, hx, hs⟩

/-- C4: `analyze_gaps` produces exactly one `SkillCoverage` entry per distinct
normalized required skill drawn from the work streams and the critical list
(the entry skills are duplicate-free and are exactly the normalized required
skills); every entry's `covered_by` is duplicate-free; and the coverage level
and bucket placement are determined by `covered_by`'s size: 0 → "none" and
`uncovered_skills`, 1 → "partial" and `partially_covered`, 2 → "good" and
`well_covered`, 3 or more → "strong" and `well_covered`. -/
theorem analyze_gaps_invariants (profiles : List TeamMemberProfile) (ps : ProjectSpec) :
    ((analyze_gaps profiles ps).skill_coverage.map (fun sc => sc.skill)).Nodup ∧
    (∀ s : String, s ∈ (analyze_gaps profiles ps).skill_coverage.map (fun sc => sc.skill) ↔
      s ∈ (ps.work_streams.flatMap (fun ws => ws.required_skills) ++
        ps.critical_skills).map normalize_skill) ∧
    (∀ sc ∈ (analyze_gaps profiles ps).skill_coverage, sc.covered_by.Nodup) ∧
    (∀ sc ∈ (analyze_gaps profiles ps).skill_coverage,
      (sc.covered_by.length = 0 → sc.coverage_level = "none" ∧
        sc.skill ∈ (analyze_gaps profiles ps).uncovered_skills) ∧
      (sc.covered_by.length = 1 → sc.coverage_level = "partial" ∧
        sc.skill ∈ (analyze_gaps profiles ps).partially_covered) ∧
      (sc.covered_by.length = 2 → sc.coverage_level = "good" ∧
        sc.skill ∈ (analyze_gaps profiles ps).well_covered) ∧
      (3 ≤ sc.covered_by.length → sc.coverage_level = "strong" ∧
        sc.skill ∈ (analyze_gaps profiles ps).well_covered)) := by
  have hskills : (analyze_gaps profiles ps).skill_coverage.map (fun sc => sc.skill) =
      (required_skills_map ps).map Prod.fst := by
    simp only [analyze_gaps, List.map_map]
    apply List.map_congr_left
    intro p _
    rfl
  refine ⟨?_, ?_, ?_, ?_⟩
  · rw [hskills, keys_required_skills_map]
    exact nodup_foldl_addKey _ _ List.nodup_nil
  · intro s
    rw [hskills]
    exact mem_keys_required_skills_map ps s
  · intro sc hsc
    simp only [analyze_gaps] at hsc
    obtain ⟨p, _, rfl⟩ := List.mem_map.mp hsc
    exact List.nodup_dedup _
  · intro sc hsc
    simp only [analyze_gaps] at hsc
    obtain ⟨p, hp, rfl⟩ := List.mem_map.mp hsc
    have hkey : p.1 ∈ (required_skills_map ps).map Prod.fst := List.mem_map_of_mem _ hp
    refine ⟨?_, ?_, ?_, ?_⟩ <;> intro hlen
    · refine ⟨?_, ?_⟩
      · show coverage_level_for (covered_by_for (team_skills_map profiles) p.1).length = "none"
        rw [show (covered_by_for (team_skills_map profiles) p.1).length = 0 from hlen]
        rfl
      · simp only [analyze_gaps]
        exact List.mem_filter.mpr ⟨hkey, by simp [hlen]⟩
    · refine ⟨?_, ?_⟩
      · show coverage_level_for (covered_by_for (team_skills_map profiles) p.1).length = "partial"
        rw [show (covered_by_for (team_skills_map profiles) p.1).length = 1 from hlen]
        rfl
      · simp only [analyze_gaps]
        exact List.mem_filter.mpr ⟨hkey, by simp [hlen]⟩
    · refine ⟨?_, ?_⟩
      · show coverage_level_for (covered_by_for (team_skills_map profiles) p.1).length = "good"
        rw [show (covered_by_for (team_skills_map profiles) p.1).length = 2 from hlen]
        rfl
      · simp only [analyze_gaps]
        exact List.mem_filter.mpr ⟨hkey, by simp [hlen]⟩
    · have hlen3 : 3 ≤ (covered_by_for (team_skills_map profiles) p.1).length := hlen
      refine ⟨?_, ?_⟩
      · show coverage_level_for (covered_by_for (team_skills_map profiles) p.1).length = "strong"
        unfold coverage_level_for
        rw [if_neg (by omega), if_neg (by omega), if_neg (by omega)]
      · simp only [analyze_gaps]
        refine List.mem_filter.mpr ⟨hkey, ?_⟩
        simp only [decide_eq_true_eq]
        omega

/-- Witness for C4: with no profiles, a required skill is uncovered. -/
theorem analyze_gaps_invariants_witness :
    "python" ∈ (analyze_gaps [] ⟨"P", [⟨"W", ["Python"], "high"⟩], []⟩).uncovered_skills := by
  have h := (analyze_gaps_invariants [] ⟨"P", [⟨"W", ["Python"], "high"⟩], []⟩).2.2.2
  have hmem : (⟨"python", ["W"], [], "none"⟩ : SkillCoverage) ∈
      (analyze_gaps [] ⟨"P", [⟨"W", ["Python"], "high"⟩], []⟩).skill_coverage := by
    decide
  exact ((h _ hmem).1 (by decide)).2

/-- C7: the `team_strengths` list of `analyze_gaps` equals the spec's
description — the normalized team skills in first-appearance order that
fuzzy-match no required skill, truncated to the first 10 — and in particular
its length never exceeds 10. -/
theorem analyze_gaps_team_strengths_spec (profiles : List TeamMemberProfile)
    (ps : ProjectSpec) :
    (analyze_gaps profiles ps).team_strengths = spec_team_strengths profiles ps ∧
    (analyze_gaps profiles ps).team_strengths.length ≤ 10 := by
  have hpred : ∀ t, ((required_skills_map ps).any (fun p => skills_match t p.1)) =
      (((reqSkillPairs ps).map (fun p => normalize_skill p.2) ++
        ps.critical_skills.map normalize_skill).any (fun r => skills_match t r)) := by
    intro t
    rw [Bool.eq_iff_iff, List.any_eq_true, List.any_eq_true]
    constructor
    · rintro ⟨p, hp, hm⟩
      have hk : p.1 ∈ (required_skills_map ps).map Prod.fst := List.mem_map_of_mem _ hp
      rw [keys_required_skills_map, mem_foldl_addKey] at hk
      rcases hk with hk | hk
      · simp at hk
      · exact ⟨p.1, hk, hm⟩
    · rintro ⟨r, hr, hm⟩
      have hk : r ∈ (required_skills_map ps).map Prod.fst := by
        rw [keys_required_skills_map, mem_foldl_addKey]
        exact Or.inr hr
      obtain ⟨p, hp, hpr⟩ := List.mem_map.mp hk
      refine ⟨p, hp, ?_⟩
      rw [hpr]
      exact hm
  have hmain : (analyze_gaps profiles ps).team_strengths = spec_team_strengths profiles ps := by
    simp only [analyze_gaps, spec_team_strengths]
    rw [keys_team_skills_map]
    congr 1
    apply List.filter_congr
    intro t _
    rw [hpred t]
  refine ⟨hmain, ?_⟩
  rw [hmain]
  unfold spec_team_strengths
  rw [List.length_take]
  exact min_le_left _ _

end ProjectAllocator
